import Mathlib

/-!
# Verification of the whisper round-robin time-series core

Shallow embedding of `src/whisper/file/archive.rs` and `src/whisper/file/mod.rs`.

Conventions of the embedding:
* machine integers (`u32`, `i64`, `usize`) become `Nat` / `Int`; Rust's `i64`
  truncated division and remainder become `Int.tdiv` / `Int.tmod`;
* the memory-mapped byte region of an archive becomes a `List Nat` of byte
  values; slicing `&data[s..e]` becomes `(data.drop s).take (e - s)` (which
  agrees with the Rust slice whenever the bounds are in range — the theorems
  carry the corresponding well-formedness hypotheses);
* `f64` point values are transported bitwise and never interpreted
  numerically, so a value is embedded as the `Nat` whose 8 big-endian bytes
  are its IEEE-754 representation;
* fallible operations return `Except`.
-/

/-- Modelled from the spec: the point codec of `point.rs` is not under `src/`;
the spec (§4.1, §6) fixes the layout: big-endian `u32` timestamp.
Big-endian encoding of a 32-bit word into 4 bytes. -/
def encodeU32BE (n : Nat) : List Nat :=
  [n / 2 ^ 24 % 256, n / 2 ^ 16 % 256, n / 2 ^ 8 % 256, n % 256]

/-- Modelled from the spec: big-endian read of a `u32` from the first four
bytes of a byte list (`BigEndian::read_u32`). -/
def readU32BE (l : List Nat) : Nat :=
  l.getD 0 0 * 2 ^ 24 + l.getD 1 0 * 2 ^ 16 + l.getD 2 0 * 2 ^ 8 + l.getD 3 0

/-- Modelled from the spec: big-endian encoding of a 64-bit word into 8 bytes
(the IEEE-754 representation of the `f64` value, transported bitwise). -/
def encodeU64BE (n : Nat) : List Nat :=
  [n / 2 ^ 56 % 256, n / 2 ^ 48 % 256, n / 2 ^ 40 % 256, n / 2 ^ 32 % 256,
   n / 2 ^ 24 % 256, n / 2 ^ 16 % 256, n / 2 ^ 8 % 256, n % 256]

/-- Modelled from the spec: big-endian read of a 64-bit word from the first
eight bytes of a byte list. -/
def readU64BE (l : List Nat) : Nat :=
  l.getD 0 0 * 2 ^ 56 + l.getD 1 0 * 2 ^ 48 + l.getD 2 0 * 2 ^ 40 + l.getD 3 0 * 2 ^ 32 +
    l.getD 4 0 * 2 ^ 24 + l.getD 5 0 * 2 ^ 16 + l.getD 6 0 * 2 ^ 8 + l.getD 7 0

/-- A whisper data point: `Point(u32, f64)`.  The value field is the 64-bit
IEEE-754 pattern of the `f64`, kept as a `Nat` (bitwise transport only). -/
structure Point where
  ts : Nat
  val : Nat
deriving DecidableEq, Repr, Inhabited

/-- `point::POINT_SIZE`: one slot is 12 bytes. -/
def POINT_SIZE : Nat := 12

/-- Modelled from the spec: `Point::write_to_slice(bucket_name, slice)` of
`point.rs` — the 12 bytes written for a point are the big-endian bucket name
followed by the big-endian value bits. -/
def Point.write_to_slice (bucket_name : Nat) (p : Point) : List Nat :=
  encodeU32BE bucket_name ++ encodeU64BE p.val

/-- Modelled from the spec: `Point::new_from_slice` of `point.rs` — decode a
12-byte slot into a point. -/
def Point.new_from_slice (data : List Nat) : Point :=
  ⟨readU32BE data, readU64BE (data.drop 4)⟩

/-- `Archive` (archive.rs): one circular buffer.  The `mmap_view` byte region
becomes the list `data`. -/
structure Archive where
  seconds_per_point : Nat
  points : Nat
  data : List Nat
deriving DecidableEq, Repr, Inhabited

namespace Archive

/-- `Archive::size`: length of the mapped region. -/
def size (a : Archive) : Nat := a.data.length

/-- `Archive::retention`. -/
def retention (a : Archive) : Nat := a.seconds_per_point * a.points

/-- `Archive::bucket_name`: `timestamp - (timestamp % seconds_per_point)`. -/
def bucket_name (a : Archive) (timestamp : Nat) : Nat :=
  timestamp - timestamp % a.seconds_per_point

/-- `Archive::anchor_bucket_name`: big-endian `u32` read of bytes `[0..4]`. -/
def anchor_bucket_name (a : Archive) : Nat := readU32BE a.data

/-- `Archive::py_mod`: `input % base` with Rust's truncating `%` (`Int.tmod`),
then shifted into `[0, base)` when negative; the result is returned as `u32`. -/
def py_mod (input base : Int) : Nat :=
  let remainder := input.tmod base
  if remainder < 0 then (base + remainder).toNat else remainder.toNat

/-- `Archive::archive_index`: slot of a bucket name, relative to the anchor,
with floor-mod wrap. -/
def archive_index (a : Archive) (bn : Nat) : Nat :=
  let anchor := a.anchor_bucket_name
  if anchor = 0 then 0
  else
    let time_distance : Int := (bn : Int) - (anchor : Int)
    let point_distance : Int := time_distance.tdiv (a.seconds_per_point : Int)
    py_mod point_distance (a.points : Int)

/-- `Archive::write`: overwrite the 12-byte slot of the point's bucket with
the encoded point.  The in-place slice mutation
`self.mut_slice()[start..end]` becomes list surgery at the same offsets. -/
def write (a : Archive) (point : Point) : Archive :=
  let bn := a.bucket_name point.ts
  let idx := a.archive_index bn
  let start := idx * POINT_SIZE
  { a with data :=
      a.data.take start ++ Point.write_to_slice bn point ++ a.data.drop (start + POINT_SIZE) }

end Archive

/-- `data.chunks(POINT_SIZE)` for `POINT_SIZE = 12`: consecutive 12-byte
chunks, the last one possibly shorter (Rust `slice::chunks` semantics). -/
def chunksOf12 : List Nat → List (List Nat)
  | [] => []
  | b0 :: b1 :: b2 :: b3 :: b4 :: b5 :: b6 :: b7 :: b8 :: b9 :: b10 :: b11 :: rest =>
      [b0, b1, b2, b3, b4, b5, b6, b7, b8, b9, b10, b11] :: chunksOf12 rest
  | l => [l]

/-- The error cases produced by `Archive::read_points` (Rust `io::Error`
values, identified here by their payloads). -/
inductive ReadError where
  | requestTooLarge (requested available : Nat)
  | malformedPoint (got : Nat)
deriving DecidableEq, Repr

/-- The `format!` message attached to each error. -/
def ReadError.message : ReadError → String
  | .requestTooLarge requested available =>
      "Points requested exceeds archive retention period. Requested: " ++ toString requested ++
        ", Available: " ++ toString available
  | .malformedPoint got =>
      "Could not divide archive into points- got malformed point of size " ++ toString got

/-- The loop body of `Archive::write_data_as_points_to_slice`, running over
the chunk list: the first chunk whose length is not 12 aborts with
`malformedPoint`, otherwise every chunk is decoded in order. -/
def decodeChunks : List (List Nat) → Except ReadError (List Point)
  | [] => .ok []
  | c :: cs =>
      if c.length = POINT_SIZE then
        (decodeChunks cs).map fun l => Point.new_from_slice c :: l
      else .error (.malformedPoint c.length)

/-- Rust slice `&l[s..e]` (meaningful when `s ≤ e ≤ l.length`; the theorems
carry those bounds). -/
def sliceBytes (l : List Nat) (s e : Nat) : List Nat := (l.drop s).take (e - s)

namespace Archive

/-- `Archive::write_data_as_points_to_slice`. -/
def write_data_as_points_to_slice (data : List Nat) : Except ReadError (List Point) :=
  decodeChunks (chunksOf12 data)

/-- `Archive::read_points`: the `&mut [Point]` output buffer of length
`bufLen` becomes the returned list.  A wrap-around read is two passes:
`[start*12 .. size)` then `[0 .. overflow)`. -/
def read_points (a : Archive) (fromBucket : Nat) (bufLen : Nat) :
    Except ReadError (List Point) :=
  if a.points < bufLen then
    .error (.requestTooLarge bufLen a.points)
  else
    let start := a.archive_index fromBucket
    let bytes_needed := bufLen * POINT_SIZE
    let end_of_read := start * POINT_SIZE + bytes_needed
    if a.size < end_of_read then
      let overflow_bytes := end_of_read - a.size
      let first_data := sliceBytes a.data (start * POINT_SIZE) a.size
      let second_data := sliceBytes a.data 0 overflow_bytes
      (write_data_as_points_to_slice first_data).bind fun l1 =>
        (write_data_as_points_to_slice second_data).map fun l2 => l1 ++ l2
    else
      write_data_as_points_to_slice (sliceBytes a.data (start * POINT_SIZE) end_of_read)

end Archive

/-- Region invariant of an archive (spec §3): the mapped region holds exactly
`points` twelve-byte slots, and `points > 0`. -/
def ArchiveWF (a : Archive) : Prop :=
  a.data.length = a.points * POINT_SIZE ∧ 0 < a.points

instance (a : Archive) : Decidable (ArchiveWF a) := by
  unfold ArchiveWF; infer_instance

/-- `WhisperFile` (mod.rs): the header contributes only `x_files_factor` to
the write path.  Modelled from the spec: `header.rs` is not under `src/`; its
`f32` x-files-factor is embedded as an exact rational, and the admission
comparison is carried out on rationals. -/
structure WhisperFile where
  x_files_factor : ℚ
  archives : List Archive
deriving DecidableEq

/-- The `WriteState` enum local to `WhisperFile::_write`. -/
inductive WriteState where
  | initial
  | aggregate (last_index : Nat)
  | finished
deriving DecidableEq, Repr

/-- One iteration of the fold inside `WhisperFile::_write`.

`agg` stands for `header.aggregation_type().aggregate(&points)` (modelled
from the spec: `header.rs` is not under `src/`; the cascade is parametric in
the aggregation function, which maps the kept points to the value bits of
the aggregate).

The `.error` arm of the candidate read models the `unwrap()` panic in the
source: the write aborts with no further archive written (the theorems show
the arm is unreachable on well-formed files). -/
def cascadeStep (agg : List Point → Nat) (xff : ℚ) (elapsed : Int)
    (s : WriteState × Point × List Archive) (index : Nat) :
    WriteState × Point × List Archive :=
  match s with
  | (.initial, point, archives) =>
      let a := archives.getD index default
      if elapsed < 0 ∨ a.retention ≤ elapsed.toNat then
        (.initial, point, archives)
      else
        (.aggregate index, point, archives.set index (a.write point))
  | (.aggregate last_index, point, archives) =>
      let a := archives.getD index default
      let last_archive := archives.getD last_index default
      let seconds_per_point := a.seconds_per_point
      let candidate_point_count :=
        min (seconds_per_point / last_archive.seconds_per_point) last_archive.points
      let timestamp := point.ts - point.ts % seconds_per_point
      match last_archive.read_points timestamp candidate_point_count with
      | .error _ => (.finished, point, archives)
      | .ok candidate_points =>
          let kept :=
            (candidate_points.enum.filter fun q =>
              timestamp + q.1 * last_archive.seconds_per_point = q.2.ts).map Prod.snd
          if xff ≤ (kept.length : ℚ) / (candidate_point_count : ℚ) then
            let point' : Point := ⟨timestamp, agg kept⟩
            (.aggregate index, point', archives.set index (a.write point'))
          else
            (.finished, point, archives)
  | (.finished, point, archives) => (.finished, point, archives)

/-- The fold of `WhisperFile::_write` over the archive indices, written as
explicit recursion over the index list. -/
def writeLoop (agg : List Point → Nat) (xff : ℚ) (elapsed : Int) :
    List Nat → WriteState × Point × List Archive → WriteState × Point × List Archive
  | [], s => s
  | i :: rest, s => writeLoop agg xff elapsed rest (cascadeStep agg xff elapsed s i)

/-- `WhisperFile::_write`: the cascading write of one point given the clock
value `now`. -/
def WhisperFile._write (agg : List Point → Nat) (f : WhisperFile) (point : Point)
    (now : Int) : WhisperFile :=
  let elapsed := now - (point.ts : Int)
  { f with archives :=
      (writeLoop agg f.x_files_factor elapsed (List.range f.archives.length)
        (.initial, point, f.archives)).2.2 }

/-- Well-formedness of a whole file: every archive satisfies the region
invariant. -/
def FileWF (f : WhisperFile) : Prop := ∀ a ∈ f.archives, ArchiveWF a

/-! ## Byte-codec lemmas -/

theorem encodeU32BE_length (n : Nat) : (encodeU32BE n).length = 4 := rfl

theorem encodeU64BE_length (n : Nat) : (encodeU64BE n).length = 8 := rfl

theorem Point.write_to_slice_length (bn : Nat) (p : Point) :
    (Point.write_to_slice bn p).length = POINT_SIZE := rfl

theorem readU32BE_encodeU32BE_append (n : Nat) (h : n < 2 ^ 32) (rest : List Nat) :
    readU32BE (encodeU32BE n ++ rest) = n := by
  show (n / 2 ^ 24 % 256) * 2 ^ 24 + (n / 2 ^ 16 % 256) * 2 ^ 16 +
      (n / 2 ^ 8 % 256) * 2 ^ 8 + n % 256 = n
  omega

theorem readU32BE_encodeU32BE (n : Nat) (h : n < 2 ^ 32) :
    readU32BE (encodeU32BE n) = n := by
  have := readU32BE_encodeU32BE_append n h []
  simpa using this

/-! ## `py_mod` and `archive_index` lemmas -/

/-- Rust's truncating remainder is bounded below by `-b` for positive `b`. -/
theorem Int.neg_lt_tmod (a : Int) {b : Int} (hb : 0 < b) : -b < a.tmod b := by
  rcases a with m | m
  · have h2 : (0 : Int) ≤ Int.tmod (Int.ofNat m) b := Int.tmod_nonneg b (Int.ofNat_nonneg m)
    omega
  · obtain ⟨n, rfl⟩ : ∃ n : Nat, b = (n : Int) := ⟨b.toNat, by omega⟩
    have hn : 0 < n := by exact_mod_cast hb
    show -(n : Int) < Int.tmod (Int.negSucc m) (Int.ofNat n)
    simp only [Int.tmod]
    have h2 : ((m + 1) % n : Nat) < n := Nat.mod_lt _ hn
    show -(n : Int) < -(((m + 1) % n : Nat) : Int)
    omega

/-- `py_mod` computes the euclidean (floor, for positive base) remainder. -/
theorem Archive.py_mod_eq_emod (a : Int) {b : Int} (hb : 0 < b) :
    (Archive.py_mod a b : Int) = a % b := by
  unfold Archive.py_mod
  have hlow := Int.neg_lt_tmod a hb
  have hhigh := Int.tmod_lt_of_pos a hb
  have hdecomp := Int.tdiv_add_tmod a b
  have hmod : a % b = a.tmod b % b := by
    conv_lhs => rw [← hdecomp]
    rw [Int.add_comm, Int.add_mul_emod_self_left]
  by_cases hneg : a.tmod b < 0
  · have h1 : a.tmod b % b = a.tmod b + b :=
      calc a.tmod b % b = (a.tmod b + b * 1) % b := (Int.add_mul_emod_self_left _ _ _).symm
        _ = a.tmod b + b * 1 := Int.emod_eq_of_lt (by omega) (by omega)
        _ = a.tmod b + b := by ring
    simp only [hneg, if_pos]
    rw [Int.toNat_of_nonneg (by omega), hmod, h1]
    ring
  · have h1 : a.tmod b % b = a.tmod b := Int.emod_eq_of_lt (by omega) (by omega)
    simp only [hneg, if_neg, not_false_iff]
    rw [Int.toNat_of_nonneg (by omega), hmod, h1]

theorem Archive.py_mod_lt (a : Int) {n : Nat} (hn : 0 < n) :
    Archive.py_mod a (n : Int) < n := by
  have hb : (0 : Int) < (n : Int) := by exact_mod_cast hn
  have h := Archive.py_mod_eq_emod a hb
  have := Int.emod_lt_of_pos a hb
  omega

/-- The slot index is always in `[0, points)` on a non-degenerate archive. -/
theorem Archive.archive_index_lt (a : Archive) (hpts : 0 < a.points) (bn : Nat) :
    a.archive_index bn < a.points := by
  unfold Archive.archive_index
  by_cases h : a.anchor_bucket_name = 0
  · simp [h, hpts]
  · simp only [h, if_neg, not_false_iff]
    exact Archive.py_mod_lt _ hpts

/-! ## Chunk-decomposition lemmas -/

theorem chunksOf12_eq_cons (l : List Nat) (h : l ≠ []) :
    chunksOf12 l = l.take 12 :: chunksOf12 (l.drop 12) := by
  rcases l with _ | ⟨b0, _ | ⟨b1, _ | ⟨b2, _ | ⟨b3, _ | ⟨b4, _ | ⟨b5, _ | ⟨b6, _ | ⟨b7, _ |
    ⟨b8, _ | ⟨b9, _ | ⟨b10, _ | ⟨b11, rest⟩⟩⟩⟩⟩⟩⟩⟩⟩⟩⟩⟩
  · exact absurd rfl h
  all_goals rfl

theorem chunksOf12_length : ∀ (m : Nat) (l : List Nat), l.length = m * 12 →
    (chunksOf12 l).length = m := by
  intro m
  induction m with
  | zero =>
      intro l hl
      have : l = [] := List.length_eq_zero.mp (by omega)
      subst this; rfl
  | succ k ih =>
      intro l hl
      have hne : l ≠ [] := by
        intro h; subst h; simp only [List.length_nil] at hl; omega
      rw [chunksOf12_eq_cons l hne]
      have : (l.drop 12).length = k * 12 := by
        rw [List.length_drop]; omega
      simp [ih _ this]

theorem chunksOf12_sizes : ∀ (m : Nat) (l : List Nat), l.length = m * 12 →
    ∀ c ∈ chunksOf12 l, c.length = 12 := by
  intro m
  induction m with
  | zero =>
      intro l hl c hc
      have : l = [] := List.length_eq_zero.mp (by omega)
      subst this; simp [chunksOf12] at hc
  | succ k ih =>
      intro l hl c hc
      have hne : l ≠ [] := by
        intro h; subst h; simp only [List.length_nil] at hl; omega
      rw [chunksOf12_eq_cons l hne, List.mem_cons] at hc
      rcases hc with hc | hc
      · subst hc; rw [List.length_take]; omega
      · exact ih (l.drop 12) (by rw [List.length_drop]; omega) c hc

theorem chunksOf12_drop : ∀ (k m : Nat) (l : List Nat), l.length = m * 12 →
    chunksOf12 (l.drop (k * 12)) = (chunksOf12 l).drop k := by
  intro k
  induction k with
  | zero => intro m l _; simp
  | succ j ih =>
      intro m l hl
      match m, hl with
      | 0, hl =>
          have : l = [] := List.length_eq_zero.mp (by omega)
          subst this; simp [chunksOf12]
      | (m' + 1), hl =>
          have hne : l ≠ [] := by
            intro h; subst h; simp only [List.length_nil] at hl; omega
          have hstep : l.drop ((j + 1) * 12) = (l.drop 12).drop (j * 12) := by
            rw [List.drop_drop]; ring_nf
          rw [hstep, ih m' (l.drop 12) (by rw [List.length_drop]; omega),
            chunksOf12_eq_cons l hne]
          rfl

theorem chunksOf12_take : ∀ (k m : Nat) (l : List Nat), l.length = m * 12 →
    chunksOf12 (l.take (k * 12)) = (chunksOf12 l).take k := by
  intro k
  induction k with
  | zero => intro m l _; simp [chunksOf12]
  | succ j ih =>
      intro m l hl
      match m, hl with
      | 0, hl =>
          have : l = [] := List.length_eq_zero.mp (by omega)
          subst this; simp [chunksOf12]
      | (m' + 1), hl =>
          have hne : l ≠ [] := by
            intro h; subst h; simp only [List.length_nil] at hl; omega
          have h12 : (l.take 12).length = 12 := by rw [List.length_take]; omega
          have hsplit : l.take ((j + 1) * 12) = l.take 12 ++ (l.drop 12).take (j * 12) := by
            rw [show (j + 1) * 12 = 12 + j * 12 by ring, List.take_add]
          have hne2 : l.take ((j + 1) * 12) ≠ [] := by
            intro h
            have := congrArg List.length h
            rw [List.length_take] at this
            simp only [List.length_nil] at this
            omega
          rw [chunksOf12_eq_cons _ hne2, chunksOf12_eq_cons l hne]
          have htake : (l.take ((j + 1) * 12)).take 12 = l.take 12 := by
            rw [hsplit, List.take_append_of_le_length (by omega)]
            simp [List.take_take]
          have hdrop : (l.take ((j + 1) * 12)).drop 12 = (l.drop 12).take (j * 12) := by
            rw [hsplit]
            have hd := List.drop_left (l.take 12) ((l.drop 12).take (j * 12))
            rw [h12] at hd
            exact hd
          rw [htake, hdrop, ih m' (l.drop 12) (by rw [List.length_drop]; omega)]
          rfl

theorem decodeChunks_ok : ∀ (cs : List (List Nat)), (∀ c ∈ cs, c.length = 12) →
    decodeChunks cs = .ok (cs.map Point.new_from_slice) := by
  intro cs
  induction cs with
  | nil => intro _; rfl
  | cons c rest ih =>
      intro h
      have hc : c.length = POINT_SIZE := h c (List.Mem.head rest)
      have hrest := ih fun x hx => h x (List.Mem.tail c hx)
      simp only [decodeChunks]
      rw [if_pos hc, hrest]
      rfl

/-- The decoded slots of an archive, in region order. -/
def slotPoints (a : Archive) : List Point :=
  (chunksOf12 a.data).map Point.new_from_slice

theorem Archive.write_data_ok {m : Nat} (data : List Nat) (h : data.length = m * 12) :
    Archive.write_data_as_points_to_slice data =
      .ok ((chunksOf12 data).map Point.new_from_slice) := by
  unfold Archive.write_data_as_points_to_slice
  exact decodeChunks_ok _ (chunksOf12_sizes m data h)

theorem slotPoints_length (a : Archive) (hWF : a.data.length = a.points * POINT_SIZE) :
    (slotPoints a).length = a.points := by
  have hWF' : a.data.length = a.points * 12 := hWF
  simp [slotPoints, chunksOf12_length a.points a.data hWF']

theorem Archive.archive_index_le (a : Archive) (hWF : a.data.length = a.points * POINT_SIZE)
    (bn : Nat) : a.archive_index bn ≤ a.points := by
  by_cases h : 0 < a.points
  · exact le_of_lt (a.archive_index_lt h bn)
  · have hpts : a.points = 0 := by omega
    have hdata : a.data = [] := List.length_eq_zero.mp (by rw [hWF, hpts]; ring)
    have hanchor : a.anchor_bucket_name = 0 := by
      simp [Archive.anchor_bucket_name, readU32BE, hdata]
    simp [Archive.archive_index, hanchor, hpts]

/-- The full characterization of a successful bulk read: the output is the
window of `bufLen` slots starting at the requested slot, wrapping at the end
of the region. -/
theorem Archive.read_points_eq (a : Archive) (fromBucket bufLen : Nat)
    (hWF : a.data.length = a.points * POINT_SIZE) (hlen : bufLen ≤ a.points) :
    a.read_points fromBucket bufLen =
      .ok (((slotPoints a).drop (a.archive_index fromBucket)).take bufLen ++
        (slotPoints a).take (a.archive_index fromBucket + bufLen - a.points)) := by
  have hWF' : a.data.length = a.points * 12 := hWF
  have hstart : a.archive_index fromBucket ≤ a.points := a.archive_index_le hWF _
  set start := a.archive_index fromBucket with hstartdef
  have hsize : a.size = a.points * 12 := hWF'
  have hdroplen : (a.data.drop (start * 12)).length = (a.points - start) * 12 := by
    rw [List.length_drop, hWF']
    omega
  have hchunkdrop : chunksOf12 (a.data.drop (start * 12)) = (chunksOf12 a.data).drop start :=
    chunksOf12_drop start a.points a.data hWF'
  simp only [Archive.read_points]
  rw [if_neg (not_lt.mpr hlen)]
  by_cases hwrap : a.size < start * POINT_SIZE + bufLen * POINT_SIZE
  · rw [if_pos hwrap]
    have hwrap' : a.points < start + bufLen := by
      have : a.points * 12 < start * 12 + bufLen * 12 := by
        rw [← hsize]; exact hwrap
      omega
    -- first pass: the tail of the region from the start slot
    have hfirst : sliceBytes a.data (start * POINT_SIZE) a.size = a.data.drop (start * 12) := by
      show (a.data.drop (start * 12)).take (a.size - start * 12) = a.data.drop (start * 12)
      apply List.take_of_length_le
      rw [hdroplen, hsize]
      omega
    have h1 : Archive.write_data_as_points_to_slice
        (sliceBytes a.data (start * POINT_SIZE) a.size) = .ok ((slotPoints a).drop start) := by
      rw [hfirst, Archive.write_data_ok (m := a.points - start) _ hdroplen, hchunkdrop,
        slotPoints, List.map_drop]
    -- second pass: the head of the region
    have hoverflow : start * POINT_SIZE + bufLen * POINT_SIZE - a.size =
        (start + bufLen - a.points) * 12 := by
      rw [hsize]
      show start * 12 + bufLen * 12 - a.points * 12 = (start + bufLen - a.points) * 12
      omega
    have htakelen : (a.data.take ((start + bufLen - a.points) * 12)).length =
        (start + bufLen - a.points) * 12 := by
      rw [List.length_take, hWF']
      omega
    have h2 : Archive.write_data_as_points_to_slice
        (sliceBytes a.data 0 (start * POINT_SIZE + bufLen * POINT_SIZE - a.size)) =
        .ok ((slotPoints a).take (start + bufLen - a.points)) := by
      rw [hoverflow]
      show Archive.write_data_as_points_to_slice
        ((a.data.drop 0).take ((start + bufLen - a.points) * 12 - 0)) = _
      simp only [List.drop_zero, Nat.sub_zero]
      rw [Archive.write_data_ok (m := start + bufLen - a.points) _ htakelen,
        chunksOf12_take _ a.points a.data hWF', slotPoints, List.map_take]
    rw [h1, h2]
    show Except.ok ((slotPoints a).drop start ++ (slotPoints a).take (start + bufLen - a.points)) = _
    have hfull : ((slotPoints a).drop start).take bufLen = (slotPoints a).drop start := by
      apply List.take_of_length_le
      rw [List.length_drop, slotPoints_length a hWF]
      omega
    rw [hfull]
  · rw [if_neg hwrap]
    have hnowrap : start + bufLen ≤ a.points := by
      have : ¬(a.points * 12 < start * 12 + bufLen * 12) := by
        rw [← hsize]; exact hwrap
      omega
    have hslice : sliceBytes a.data (start * POINT_SIZE) (start * POINT_SIZE + bufLen * POINT_SIZE) =
        (a.data.drop (start * 12)).take (bufLen * 12) := by
      show (a.data.drop (start * 12)).take (start * 12 + bufLen * 12 - start * 12) = _
      congr 1
      omega
    have htakelen : ((a.data.drop (start * 12)).take (bufLen * 12)).length = bufLen * 12 := by
      rw [List.length_take, hdroplen]
      omega
    have hchunks : chunksOf12 ((a.data.drop (start * 12)).take (bufLen * 12)) =
        ((chunksOf12 a.data).drop start).take bufLen := by
      rw [chunksOf12_take bufLen (a.points - start) _ hdroplen, hchunkdrop]
    rw [hslice, Archive.write_data_ok (m := bufLen) _ htakelen, hchunks]
    have hempty : (slotPoints a).take (start + bufLen - a.points) = [] := by
      rw [Nat.sub_eq_zero_of_le hnowrap]
      rfl
    rw [hempty, List.append_nil, slotPoints, List.map_take, List.map_drop]

/-! ## `Archive.write` lemmas -/

theorem Archive.write_seconds_per_point (a : Archive) (p : Point) :
    (a.write p).seconds_per_point = a.seconds_per_point := rfl

theorem Archive.write_points_count (a : Archive) (p : Point) :
    (a.write p).points = a.points := rfl

theorem Archive.write_data_eq (a : Archive) (p : Point) :
    (a.write p).data =
      a.data.take (a.archive_index (a.bucket_name p.ts) * POINT_SIZE) ++
        Point.write_to_slice (a.bucket_name p.ts) p ++
        a.data.drop (a.archive_index (a.bucket_name p.ts) * POINT_SIZE + POINT_SIZE) := rfl

theorem Archive.write_data_length (a : Archive) (p : Point) (hWF : ArchiveWF a) :
    (a.write p).data.length = a.data.length := by
  have hidx : a.archive_index (a.bucket_name p.ts) < a.points := a.archive_index_lt hWF.2 _
  have hlen : a.data.length = a.points * POINT_SIZE := hWF.1
  rw [Archive.write_data_eq, List.length_append, List.length_append,
    Point.write_to_slice_length, List.length_take, List.length_drop]
  show min _ _ + POINT_SIZE + _ = _
  rw [POINT_SIZE] at *
  omega

theorem Archive.write_WF (a : Archive) (p : Point) (hWF : ArchiveWF a) :
    ArchiveWF (a.write p) := by
  constructor
  · rw [Archive.write_data_length a p hWF, Archive.write_points_count]
    exact hWF.1
  · rw [Archive.write_points_count]
    exact hWF.2

/-- `POINT_SIZE` as a rewrite rule for arithmetic goals. -/
theorem POINT_SIZE_eq : POINT_SIZE = 12 := rfl

/-- Frame property of a write at the byte level: outside the written slot the
region is untouched. -/
theorem Archive.write_data_frame (a : Archive) (p : Point) (hWF : ArchiveWF a) (j : Nat)
    (hj : j < a.archive_index (a.bucket_name p.ts) * POINT_SIZE ∨
      a.archive_index (a.bucket_name p.ts) * POINT_SIZE + POINT_SIZE ≤ j) :
    (a.write p).data[j]? = a.data[j]? := by
  have hidx := a.archive_index_lt hWF.2 (a.bucket_name p.ts)
  have hlen := hWF.1
  rw [POINT_SIZE_eq] at hlen hj
  rw [Archive.write_data_eq, POINT_SIZE_eq]
  set i := a.archive_index (a.bucket_name p.ts) with hidef
  have htklen : (a.data.take (i * 12)).length = i * 12 := by
    rw [List.length_take]
    omega
  rw [List.append_assoc, List.getElem?_append]
  rcases hj with hj | hj
  · rw [if_pos (by rw [htklen]; omega), List.getElem?_take, if_pos (by omega)]
  · rw [if_neg (by rw [htklen]; omega), htklen, List.getElem?_append,
      if_neg (by rw [Point.write_to_slice_length, POINT_SIZE_eq]; omega),
      Point.write_to_slice_length, POINT_SIZE_eq, List.getElem?_drop]
    congr 1
    omega

/-- The written slot holds exactly the encoded point. -/
theorem Archive.write_data_slot (a : Archive) (p : Point) (hWF : ArchiveWF a) :
    sliceBytes (a.write p).data (a.archive_index (a.bucket_name p.ts) * POINT_SIZE)
        (a.archive_index (a.bucket_name p.ts) * POINT_SIZE + POINT_SIZE) =
      Point.write_to_slice (a.bucket_name p.ts) p := by
  have hidx := a.archive_index_lt hWF.2 (a.bucket_name p.ts)
  have hlen := hWF.1
  rw [POINT_SIZE_eq] at hlen
  rw [sliceBytes, Archive.write_data_eq, POINT_SIZE_eq]
  set i := a.archive_index (a.bucket_name p.ts) with hidef
  have htklen : (a.data.take (i * 12)).length = i * 12 := by
    rw [List.length_take]
    omega
  have hd : ((a.data.take (i * 12) ++ Point.write_to_slice (a.bucket_name p.ts) p ++
      a.data.drop (i * 12 + 12)).drop (i * 12)) =
      Point.write_to_slice (a.bucket_name p.ts) p ++ a.data.drop (i * 12 + 12) := by
    rw [List.append_assoc]
    have := List.drop_left (a.data.take (i * 12))
      (Point.write_to_slice (a.bucket_name p.ts) p ++ a.data.drop (i * 12 + 12))
    rw [htklen] at this
    exact this
  rw [hd, Nat.add_sub_cancel_left, List.take_append_of_le_length
    (by rw [Point.write_to_slice_length, POINT_SIZE_eq]), List.take_of_length_le
    (by rw [Point.write_to_slice_length, POINT_SIZE_eq])]

theorem readU32BE_congr (l l' : List Nat) (h : ∀ j, j < 4 → l[j]? = l'[j]?) :
    readU32BE l = readU32BE l' := by
  unfold readU32BE
  simp only [List.getD_eq_getElem?_getD, h 0 (by omega), h 1 (by omega), h 2 (by omega),
    h 3 (by omega)]

/-- Writing a point either leaves the anchor unchanged (slot ≠ 0) or makes
the written bucket the new anchor (slot 0). -/
theorem Archive.anchor_write (a : Archive) (p : Point) (hWF : ArchiveWF a)
    (hts : p.ts < 2 ^ 32) :
    (a.write p).anchor_bucket_name =
      if a.archive_index (a.bucket_name p.ts) = 0 then a.bucket_name p.ts
      else a.anchor_bucket_name := by
  have hbn : a.bucket_name p.ts < 2 ^ 32 := lt_of_le_of_lt (Nat.sub_le _ _) hts
  by_cases hi : a.archive_index (a.bucket_name p.ts) = 0
  · rw [if_pos hi]
    have hdata : (a.write p).data = Point.write_to_slice (a.bucket_name p.ts) p ++
        a.data.drop (0 * POINT_SIZE + POINT_SIZE) := by
      rw [Archive.write_data_eq, hi]
      simp
    rw [Archive.anchor_bucket_name, hdata, Point.write_to_slice, List.append_assoc]
    exact readU32BE_encodeU32BE_append _ hbn _
  · rw [if_neg hi]
    have hfr : ∀ j, j < 4 → (a.write p).data[j]? = a.data[j]? := by
      intro j hj
      apply Archive.write_data_frame a p hWF j
      left
      rw [POINT_SIZE_eq]
      have : 1 ≤ a.archive_index (a.bucket_name p.ts) := by omega
      omega
    exact readU32BE_congr _ _ hfr

/-- Rewriting a slot does not move it: the bucket of the written point has
the same index before and after the write. -/
theorem Archive.archive_index_write_bucket (a : Archive) (p : Point) (hWF : ArchiveWF a)
    (hts : p.ts < 2 ^ 32) :
    (a.write p).archive_index (a.bucket_name p.ts) = a.archive_index (a.bucket_name p.ts) := by
  have hanchor := Archive.anchor_write a p hWF hts
  by_cases hi : a.archive_index (a.bucket_name p.ts) = 0
  · rw [if_pos hi] at hanchor
    rw [hi]
    simp only [Archive.archive_index, hanchor]
    by_cases hbn0 : a.bucket_name p.ts = 0
    · simp [hbn0]
    · rw [if_neg hbn0]
      simp [Archive.py_mod, Int.sub_self, Int.zero_tdiv, Int.zero_tmod]
  · rw [if_neg hi] at hanchor
    simp only [Archive.archive_index, hanchor, Archive.write_seconds_per_point,
      Archive.write_points_count]

/-- `Archive::write` is idempotent at the byte level. -/
theorem Archive.write_write (a : Archive) (p : Point) (hWF : ArchiveWF a)
    (hts : p.ts < 2 ^ 32) :
    (a.write p).write p = a.write p := by
  have hidx := Archive.archive_index_write_bucket a p hWF hts
  have hidxlt := a.archive_index_lt hWF.2 (a.bucket_name p.ts)
  have hlen := hWF.1
  rw [POINT_SIZE_eq] at hlen
  show ({ a with data := ((a.write p).data.take
      ((a.write p).archive_index ((a.write p).bucket_name p.ts) * POINT_SIZE) ++
      Point.write_to_slice ((a.write p).bucket_name p.ts) p ++
      (a.write p).data.drop ((a.write p).archive_index ((a.write p).bucket_name p.ts) *
        POINT_SIZE + POINT_SIZE)) } : Archive) = a.write p
  have hbneq : (a.write p).bucket_name p.ts = a.bucket_name p.ts := rfl
  rw [hbneq, hidx, POINT_SIZE_eq]
  set i := a.archive_index (a.bucket_name p.ts) with hidef
  set S := Point.write_to_slice (a.bucket_name p.ts) p with hSdef
  have hSlen : S.length = 12 := Point.write_to_slice_length _ _
  have hAlen : (a.data.take (i * 12)).length = i * 12 := by
    rw [List.length_take]
    omega
  have hdata' : (a.write p).data = a.data.take (i * 12) ++ S ++ a.data.drop (i * 12 + 12) := by
    rw [Archive.write_data_eq, POINT_SIZE_eq]
  have htake : (a.write p).data.take (i * 12) = a.data.take (i * 12) := by
    rw [hdata', List.append_assoc, List.take_append_of_le_length (by omega),
      List.take_of_length_le (by omega)]
  have hdrop : (a.write p).data.drop (i * 12 + 12) = a.data.drop (i * 12 + 12) := by
    rw [hdata']
    have := List.drop_left (a.data.take (i * 12) ++ S) (a.data.drop (i * 12 + 12))
    rw [List.length_append, hAlen, hSlen] at this
    exact this
  rw [htake, hdrop]
  rfl

/-! ## Cascade-fold support lemmas -/

/-- Well-formedness of a list of archives. -/
def ArchivesWF (archs : List Archive) : Prop := ∀ a ∈ archs, ArchiveWF a

theorem set_getD_self {α : Type} [Inhabited α] (l : List α) (i : Nat) :
    l.set i (l.getD i default) = l := by
  by_cases hi : i < l.length
  · apply List.ext_getElem?
    intro j
    rw [List.getElem?_set]
    by_cases hij : i = j
    · subst hij
      rw [if_pos rfl, if_pos hi, List.getD_eq_getElem?_getD, List.getElem?_eq_getElem hi]
      rfl
    · rw [if_neg hij]
  · exact List.set_eq_of_length_le (by omega)

theorem getD_set_write (archs : List Archive) (i j : Nat) (q : Point) :
    (archs.set i ((archs.getD i default).write q)).getD j default =
      if i = j ∧ i < archs.length then (archs.getD i default).write q
      else archs.getD j default := by
  rw [List.getD_eq_getElem?_getD, List.getElem?_set]
  by_cases h1 : i = j
  · subst h1
    by_cases h2 : i < archs.length
    · rw [if_pos rfl, if_pos h2, if_pos ⟨rfl, h2⟩]
      rfl
    · rw [if_pos rfl, if_neg h2, if_neg (by tauto), List.getD_eq_getElem?_getD,
        List.getElem?_eq_none (by omega)]
  · rw [if_neg h1, if_neg (fun hc : i = j ∧ i < archs.length => h1 hc.1)]
    rw [List.getD_eq_getElem?_getD]

theorem ArchivesWF_set_write (archs : List Archive) (i : Nat) (q : Point)
    (h : ArchivesWF archs) :
    ArchivesWF (archs.set i ((archs.getD i default).write q)) := by
  by_cases hi : i < archs.length
  · intro a ha
    rcases List.mem_or_eq_of_mem_set ha with ha | rfl
    · exact h a ha
    · apply Archive.write_WF
      have : archs.getD i default = archs[i] := by
        rw [List.getD_eq_getElem?_getD, List.getElem?_eq_getElem hi]
        rfl
      rw [this]
      exact h _ (List.getElem_mem hi)
  · rw [List.set_eq_of_length_le (by omega)]
    exact h

/-- Each fold step leaves the archive list unchanged or overwrites a single
slot of the archive at the processed index. -/
theorem cascadeStep_shape (agg : List Point → Nat) (xff : ℚ) (elapsed : Int)
    (st : WriteState) (p : Point) (archs : List Archive) (index : Nat) :
    (cascadeStep agg xff elapsed (st, p, archs) index).2.2 = archs ∨
    ∃ q : Point, (cascadeStep agg xff elapsed (st, p, archs) index).2.2 =
      archs.set index ((archs.getD index default).write q) := by
  cases st with
  | initial =>
      simp only [cascadeStep]
      split
      · left; rfl
      · right; exact ⟨p, rfl⟩
  | aggregate last_index =>
      simp only [cascadeStep]
      split
      · left; rfl
      · split
        · right; exact ⟨_, rfl⟩
        · left; rfl
  | finished => left; rfl

theorem writeLoop_finished (agg : List Point → Nat) (xff : ℚ) (elapsed : Int) :
    ∀ (idxs : List Nat) (p : Point) (archs : List Archive),
    writeLoop agg xff elapsed idxs (.finished, p, archs) = (.finished, p, archs) := by
  intro idxs
  induction idxs with
  | nil => intro p archs; rfl
  | cons i rest ih => intro p archs; exact ih p archs

theorem writeLoop_getD_frame (agg : List Point → Nat) (xff : ℚ) (elapsed : Int) :
    ∀ (idxs : List Nat) (s : WriteState × Point × List Archive) (j : Nat), j ∉ idxs →
    ((writeLoop agg xff elapsed idxs s).2.2).getD j default = (s.2.2).getD j default := by
  intro idxs
  induction idxs with
  | nil => intro s j _; rfl
  | cons i rest ih =>
      intro s j hj
      rw [List.mem_cons] at hj
      push_neg at hj
      show (writeLoop agg xff elapsed rest (cascadeStep agg xff elapsed s i)).2.2.getD j default = _
      rw [ih _ j hj.2]
      obtain ⟨st, p, archs⟩ := s
      rcases cascadeStep_shape agg xff elapsed st p archs i with h | ⟨q, h⟩
      · rw [h]
      · rw [h, getD_set_write, if_neg (by tauto)]

theorem writeLoop_length (agg : List Point → Nat) (xff : ℚ) (elapsed : Int) :
    ∀ (idxs : List Nat) (s : WriteState × Point × List Archive),
    ((writeLoop agg xff elapsed idxs s).2.2).length = (s.2.2).length := by
  intro idxs
  induction idxs with
  | nil => intro s; rfl
  | cons i rest ih =>
      intro s
      show ((writeLoop agg xff elapsed rest (cascadeStep agg xff elapsed s i)).2.2).length = _
      rw [ih _]
      obtain ⟨st, p, archs⟩ := s
      rcases cascadeStep_shape agg xff elapsed st p archs i with h | ⟨q, h⟩
      · rw [h]
      · rw [h, List.length_set]

theorem writeLoop_spp_pts (agg : List Point → Nat) (xff : ℚ) (elapsed : Int) :
    ∀ (idxs : List Nat) (s : WriteState × Point × List Archive) (j : Nat),
    (((writeLoop agg xff elapsed idxs s).2.2).getD j default).seconds_per_point =
      ((s.2.2).getD j default).seconds_per_point ∧
    (((writeLoop agg xff elapsed idxs s).2.2).getD j default).points =
      ((s.2.2).getD j default).points := by
  intro idxs
  induction idxs with
  | nil => intro s j; exact ⟨rfl, rfl⟩
  | cons i rest ih =>
      intro s j
      have hstep : ((cascadeStep agg xff elapsed s i).2.2.getD j default).seconds_per_point =
          ((s.2.2).getD j default).seconds_per_point ∧
          ((cascadeStep agg xff elapsed s i).2.2.getD j default).points =
          ((s.2.2).getD j default).points := by
        obtain ⟨st, p, archs⟩ := s
        rcases cascadeStep_shape agg xff elapsed st p archs i with h | ⟨q, h⟩
        · rw [h]; exact ⟨rfl, rfl⟩
        · rw [h, getD_set_write]
          split
          · rename_i hcond
            obtain ⟨rfl, _⟩ := hcond
            exact ⟨Archive.write_seconds_per_point _ _, Archive.write_points_count _ _⟩
          · exact ⟨rfl, rfl⟩
      have hloop := ih (cascadeStep agg xff elapsed s i) j
      exact ⟨hloop.1.trans hstep.1, hloop.2.trans hstep.2⟩

theorem writeLoop_WF (agg : List Point → Nat) (xff : ℚ) (elapsed : Int) :
    ∀ (idxs : List Nat) (s : WriteState × Point × List Archive),
    ArchivesWF s.2.2 → ArchivesWF ((writeLoop agg xff elapsed idxs s).2.2) := by
  intro idxs
  induction idxs with
  | nil => intro s h; exact h
  | cons i rest ih =>
      intro s h
      apply ih (cascadeStep agg xff elapsed s i)
      obtain ⟨st, p, archs⟩ := s
      rcases cascadeStep_shape agg xff elapsed st p archs i with hs | ⟨q, hs⟩
      · rw [hs]; exact h
      · rw [hs]; exact ArchivesWF_set_write archs i q h

theorem writeLoop_nil (agg : List Point → Nat) (xff : ℚ) (elapsed : Int)
    (s : WriteState × Point × List Archive) :
    writeLoop agg xff elapsed [] s = s := rfl

theorem writeLoop_cons (agg : List Point → Nat) (xff : ℚ) (elapsed : Int) (i : Nat)
    (rest : List Nat) (s : WriteState × Point × List Archive) :
    writeLoop agg xff elapsed (i :: rest) s =
      writeLoop agg xff elapsed rest (cascadeStep agg xff elapsed s i) := rfl

/-- Unfolding of the `Initial` arm of the fold step. -/
theorem cascadeStep_initial (agg : List Point → Nat) (xff : ℚ) (elapsed : Int)
    (p : Point) (archs : List Archive) (index : Nat) :
    cascadeStep agg xff elapsed (.initial, p, archs) index =
      if elapsed < 0 ∨ (archs.getD index default).retention ≤ elapsed.toNat then
        (.initial, p, archs)
      else
        (.aggregate index, p, archs.set index ((archs.getD index default).write p)) := rfl

/-- Unfolding of the `Aggregate` arm of the fold step. -/
theorem cascadeStep_aggregate (agg : List Point → Nat) (xff : ℚ) (elapsed : Int)
    (p : Point) (archs : List Archive) (last_index index : Nat) :
    cascadeStep agg xff elapsed (.aggregate last_index, p, archs) index =
      match (archs.getD last_index default).read_points
          (p.ts - p.ts % (archs.getD index default).seconds_per_point)
          (min ((archs.getD index default).seconds_per_point /
              (archs.getD last_index default).seconds_per_point)
            (archs.getD last_index default).points) with
      | .error _ => (.finished, p, archs)
      | .ok candidate_points =>
          let kept := (candidate_points.enum.filter fun q =>
            p.ts - p.ts % (archs.getD index default).seconds_per_point +
              q.1 * (archs.getD last_index default).seconds_per_point = q.2.ts).map Prod.snd
          if xff ≤ (kept.length : ℚ) /
              ((min ((archs.getD index default).seconds_per_point /
                  (archs.getD last_index default).seconds_per_point)
                (archs.getD last_index default).points : Nat) : ℚ) then
            (.aggregate index,
             ⟨p.ts - p.ts % (archs.getD index default).seconds_per_point, agg kept⟩,
             archs.set index ((archs.getD index default).write
               ⟨p.ts - p.ts % (archs.getD index default).seconds_per_point, agg kept⟩))
          else
            (.finished, p, archs) := rfl

theorem cascadeStep_spp_pts (agg : List Point → Nat) (xff : ℚ) (elapsed : Int)
    (s : WriteState × Point × List Archive) (i j : Nat) :
    ((cascadeStep agg xff elapsed s i).2.2.getD j default).seconds_per_point =
      ((s.2.2).getD j default).seconds_per_point ∧
    ((cascadeStep agg xff elapsed s i).2.2.getD j default).points =
      ((s.2.2).getD j default).points := by
  obtain ⟨st, p, archs⟩ := s
  rcases cascadeStep_shape agg xff elapsed st p archs i with h | ⟨q, h⟩
  · rw [h]; exact ⟨rfl, rfl⟩
  · rw [h, getD_set_write]
    split
    · rename_i hcond
      obtain ⟨rfl, _⟩ := hcond
      exact ⟨Archive.write_seconds_per_point _ _, Archive.write_points_count _ _⟩
    · exact ⟨rfl, rfl⟩

/-- Running one fold step from two archive lists that agree on the source
and destination slots takes the same branch and performs the same update in
both. -/
theorem cascadeStep_congr (agg : List Point → Nat) (xff : ℚ) (elapsed : Int)
    (st : WriteState) (p : Point) (i : Nat) (s₁ s₂ : List Archive)
    (hlast : ∀ last, st = .aggregate last → s₂.getD last default = s₁.getD last default)
    (hspp : (s₂.getD i default).seconds_per_point = (s₁.getD i default).seconds_per_point)
    (hpts : (s₂.getD i default).points = (s₁.getD i default).points) :
    (∃ st', (st' = WriteState.initial ∨ st' = WriteState.finished) ∧
      cascadeStep agg xff elapsed (st, p, s₁) i = (st', p, s₁) ∧
      cascadeStep agg xff elapsed (st, p, s₂) i = (st', p, s₂)) ∨
    (∃ q : Point, q.ts ≤ p.ts ∧
      cascadeStep agg xff elapsed (st, p, s₁) i =
        (.aggregate i, q, s₁.set i ((s₁.getD i default).write q)) ∧
      cascadeStep agg xff elapsed (st, p, s₂) i =
        (.aggregate i, q, s₂.set i ((s₂.getD i default).write q))) := by
  cases st with
  | initial =>
      rw [cascadeStep_initial, cascadeStep_initial]
      have hret : (s₂.getD i default).retention = (s₁.getD i default).retention := by
        unfold Archive.retention
        rw [hspp, hpts]
      by_cases hcond : elapsed < 0 ∨ (s₁.getD i default).retention ≤ elapsed.toNat
      · exact Or.inl ⟨.initial, Or.inl rfl, by rw [if_pos hcond],
          by rw [if_pos (by rw [hret]; exact hcond)]⟩
      · exact Or.inr ⟨p, le_refl _, by rw [if_neg hcond],
          by rw [if_neg (by rw [hret]; exact hcond)]⟩
  | aggregate last =>
      have hl := hlast last rfl
      rw [cascadeStep_aggregate, cascadeStep_aggregate, hl, hspp]
      rcases hread : (s₁.getD last default).read_points
          (p.ts - p.ts % (s₁.getD i default).seconds_per_point)
          (min ((s₁.getD i default).seconds_per_point /
              (s₁.getD last default).seconds_per_point)
            (s₁.getD last default).points) with e | cp
      · exact Or.inl ⟨.finished, Or.inr rfl, rfl, rfl⟩
      · by_cases hadm : xff ≤
            ((((cp.enum.filter fun q =>
                p.ts - p.ts % (s₁.getD i default).seconds_per_point +
                  q.1 * (s₁.getD last default).seconds_per_point = q.2.ts).map
              Prod.snd).length : ℚ) /
            ((min ((s₁.getD i default).seconds_per_point /
                (s₁.getD last default).seconds_per_point)
              (s₁.getD last default).points : Nat) : ℚ))
        · refine Or.inr ⟨⟨p.ts - p.ts % (s₁.getD i default).seconds_per_point,
            agg ((cp.enum.filter fun q =>
                p.ts - p.ts % (s₁.getD i default).seconds_per_point +
                  q.1 * (s₁.getD last default).seconds_per_point = q.2.ts).map Prod.snd)⟩,
            Nat.sub_le _ _, ?_, ?_⟩
          · exact if_pos hadm
          · exact if_pos hadm
        · refine Or.inl ⟨.finished, Or.inr rfl, ?_, ?_⟩
          · exact if_neg hadm
          · exact if_neg hadm
  | finished => exact Or.inl ⟨.finished, Or.inr rfl, rfl, rfl⟩

/-- Running the cascade fold a second time over the archives it has already
produced changes nothing (the lockstep induction behind write idempotence). -/
theorem writeLoop_idem (agg : List Point → Nat) (xff : ℚ) (elapsed : Int) :
    ∀ (idxs : List Nat) (st : WriteState) (p : Point) (archs : List Archive),
    ArchivesWF archs → p.ts < 2 ^ 32 →
    idxs.Pairwise (· < ·) →
    (∀ last, st = .aggregate last → last ∉ idxs) →
    writeLoop agg xff elapsed idxs
        (st, p, (writeLoop agg xff elapsed idxs (st, p, archs)).2.2) =
      writeLoop agg xff elapsed idxs (st, p, archs) := by
  intro idxs
  induction idxs with
  | nil => intro st p archs _ _ _ _; rfl
  | cons i rest ih =>
      intro st p archs hWF hts hpw hlast
      rw [List.pairwise_cons] at hpw
      obtain ⟨hpw1, hpw2⟩ := hpw
      have hir : i ∉ rest := fun h => lt_irrefl i (hpw1 i h)
      rw [writeLoop_cons, writeLoop_cons]
      have hlastA : ∀ last, st = .aggregate last →
          ((writeLoop agg xff elapsed rest
            (cascadeStep agg xff elapsed (st, p, archs) i)).2.2).getD last default =
          archs.getD last default := by
        intro last hst
        have hl := hlast last hst
        rw [List.mem_cons] at hl
        push_neg at hl
        rw [writeLoop_getD_frame agg xff elapsed rest _ last hl.2]
        rcases cascadeStep_shape agg xff elapsed st p archs i with h | ⟨q, h⟩
        · rw [h]
        · rw [h, getD_set_write, if_neg (fun hc => hl.1 hc.1.symm)]
      have hsppA : (((writeLoop agg xff elapsed rest
            (cascadeStep agg xff elapsed (st, p, archs) i)).2.2).getD i
              default).seconds_per_point =
          (archs.getD i default).seconds_per_point := by
        rw [(writeLoop_spp_pts agg xff elapsed rest _ i).1]
        exact (cascadeStep_spp_pts agg xff elapsed (st, p, archs) i i).1
      have hptsA : (((writeLoop agg xff elapsed rest
            (cascadeStep agg xff elapsed (st, p, archs) i)).2.2).getD i default).points =
          (archs.getD i default).points := by
        rw [(writeLoop_spp_pts agg xff elapsed rest _ i).2]
        exact (cascadeStep_spp_pts agg xff elapsed (st, p, archs) i i).2
      rcases cascadeStep_congr agg xff elapsed st p i archs _ hlastA hsppA hptsA with
        ⟨st', hst', h₁, h₂⟩ | ⟨q, hq, h₁, h₂⟩
      · rw [h₂, h₁]
        exact ih st' p archs hWF hts hpw2
          (fun last h => by rcases hst' with h' | h' <;> (subst h'; cases h))
      · rw [h₂, h₁]
        have hq32 : q.ts < 2 ^ 32 := lt_of_le_of_lt hq hts
        have hWF' : ArchivesWF (archs.set i ((archs.getD i default).write q)) :=
          ArchivesWF_set_write archs i q hWF
        have hAi : ((writeLoop agg xff elapsed rest
            (.aggregate i, q, archs.set i ((archs.getD i default).write q))).2.2).getD i
              default =
            (archs.set i ((archs.getD i default).write q)).getD i default :=
          writeLoop_getD_frame agg xff elapsed rest _ i hir
        have hset : ((writeLoop agg xff elapsed rest
            (.aggregate i, q, archs.set i ((archs.getD i default).write q))).2.2).set i
              ((((writeLoop agg xff elapsed rest
                (.aggregate i, q, archs.set i ((archs.getD i default).write q))).2.2).getD i
                  default).write q) =
            (writeLoop agg xff elapsed rest
              (.aggregate i, q, archs.set i ((archs.getD i default).write q))).2.2 := by
          by_cases hilen : i < archs.length
          · have hgi : (archs.set i ((archs.getD i default).write q)).getD i default =
                (archs.getD i default).write q := by
              rw [getD_set_write, if_pos ⟨rfl, hilen⟩]
            have hWFi : ArchiveWF (archs.getD i default) := by
              have hh : archs.getD i default = archs[i] := by
                rw [List.getD_eq_getElem?_getD, List.getElem?_eq_getElem hilen]
                rfl
              rw [hh]
              exact hWF _ (List.getElem_mem hilen)
            have hkey : (((writeLoop agg xff elapsed rest
                (.aggregate i, q, archs.set i ((archs.getD i default).write q))).2.2).getD i
                  default).write q =
                ((writeLoop agg xff elapsed rest
                  (.aggregate i, q, archs.set i ((archs.getD i default).write q))).2.2).getD i
                    default := by
              rw [hAi, hgi]
              exact Archive.write_write _ q hWFi hq32
            rw [hkey, set_getD_self]
          · apply List.set_eq_of_length_le
            rw [writeLoop_length]
            show (archs.set i _).length ≤ i
            rw [List.length_set]
            omega
        rw [hset]
        exact ih (.aggregate i) q (archs.set i ((archs.getD i default).write q)) hWF' hq32 hpw2
          (fun last h => by injection h with h'; subst h'; exact hir)

instance (archs : List Archive) : Decidable (ArchivesWF archs) := by
  unfold ArchivesWF
  exact List.decidableBAll _ _

instance (f : WhisperFile) : Decidable (FileWF f) := by
  unfold FileWF
  exact List.decidableBAll _ _

/-- When every archive so far rejects the point on the retention check, the
fold stays in the `Initial` state and never writes. -/
theorem writeLoop_initial_all_reject (agg : List Point → Nat) (xff : ℚ) (elapsed : Int) :
    ∀ (idxs : List Nat) (p : Point) (archs : List Archive),
    (∀ i ∈ idxs, elapsed < 0 ∨ (archs.getD i default).retention ≤ elapsed.toNat) →
    writeLoop agg xff elapsed idxs (.initial, p, archs) = (.initial, p, archs) := by
  intro idxs
  induction idxs with
  | nil => intro p archs _; rfl
  | cons i rest ih =>
      intro p archs h
      rw [writeLoop_cons, cascadeStep_initial, if_pos (h i (List.Mem.head rest))]
      exact ih p archs fun j hj => h j (List.Mem.tail i hj)

/-- The first archive whose retention covers the point receives it verbatim:
once written at index `k`, later fold steps do not touch slot `k`. -/
theorem writeLoop_initial_getD (agg : List Point → Nat) (xff : ℚ) (elapsed : Int) :
    ∀ (idxs : List Nat) (p : Point) (archs : List Archive) (k : Nat),
    k ∈ idxs → idxs.Pairwise (· < ·) → k < archs.length →
    (∀ j ∈ idxs, j < k → elapsed < 0 ∨ (archs.getD j default).retention ≤ elapsed.toNat) →
    ¬(elapsed < 0 ∨ (archs.getD k default).retention ≤ elapsed.toNat) →
    ((writeLoop agg xff elapsed idxs (.initial, p, archs)).2.2).getD k default =
      (archs.getD k default).write p := by
  intro idxs
  induction idxs with
  | nil => intro p archs k hk; cases hk
  | cons i rest ih =>
      intro p archs k hk hpw hklen hrej hacc
      rw [List.pairwise_cons] at hpw
      rw [List.mem_cons] at hk
      rcases hk with rfl | hk
      · have hkr : k ∉ rest := fun h => lt_irrefl k (hpw.1 k h)
        rw [writeLoop_cons, cascadeStep_initial, if_neg hacc,
          writeLoop_getD_frame agg xff elapsed rest _ k hkr]
        show (archs.set k ((archs.getD k default).write p)).getD k default = _
        rw [getD_set_write, if_pos ⟨rfl, hklen⟩]
      · have hik : i < k := hpw.1 k hk
        rw [writeLoop_cons, cascadeStep_initial,
          if_pos (hrej i (List.Mem.head rest) hik)]
        exact ih p archs k hk hpw.2 hklen (fun j hj hjk => hrej j (List.Mem.tail i hj) hjk) hacc

instance {e a : Type} [DecidableEq e] [DecidableEq a] : DecidableEq (Except e a) :=
  fun x y =>
    match x, y with
    | .ok v, .ok w => decidable_of_iff (v = w) (by constructor <;> (intro h; cases h; rfl))
    | .error v, .error w =>
        decidable_of_iff (v = w) (by constructor <;> (intro h; cases h; rfl))
    | .ok _, .error _ => isFalse (by intro h; cases h)
    | .error _, .ok _ => isFalse (by intro h; cases h)

/-! ## Fixtures (from the Rust test suite) -/

/-- The 36-byte archive region of the test fixture `SAMPLE_FILE_2` (three
2-second slots anchored at 1440392088, each holding the value 100.0). -/
def fixtureData : List Nat :=
  [0x55, 0xDA, 0xA3, 0x98, 0x40, 0x59, 0x00, 0x00, 0x00, 0x00, 0x00, 0x00,
   0x55, 0xDA, 0xA3, 0x9A, 0x40, 0x59, 0x00, 0x00, 0x00, 0x00, 0x00, 0x00,
   0x55, 0xDA, 0xA3, 0x9C, 0x40, 0x59, 0x00, 0x00, 0x00, 0x00, 0x00, 0x00]

/-- A two-archive file body (1 s × 3 slots, then 2 s × 2 slots), zeroed. -/
def demoArchives : List Archive :=
  [⟨1, 3, List.replicate 36 0⟩, ⟨2, 2, List.replicate 24 0⟩]

/-! ## Claim theorems -/

/-- **C1.** For every archive with anchor `a ≠ 0` and `points > 0` (with the
header invariant `seconds_per_point > 0`), `archive_index bn ∈ [0, points)`
for every bucket name, and for every integer `k` — negatives included — with
`a + k * seconds_per_point` a representable (non-negative) bucket name,
`archive_index (a + k * seconds_per_point) = k mod points` under floor-mod
semantics. -/
theorem C1_archive_index_floor_mod (a : Archive)
    (hanchor : a.anchor_bucket_name ≠ 0) (hpts : 0 < a.points)
    (hspp : 0 < a.seconds_per_point) :
    (∀ bn : Nat, a.archive_index bn < a.points) ∧
    (∀ k : Int, 0 ≤ (a.anchor_bucket_name : Int) + k * (a.seconds_per_point : Int) →
      a.archive_index
          ((a.anchor_bucket_name : Int) + k * (a.seconds_per_point : Int)).toNat =
        (k % (a.points : Int)).toNat) := by
  constructor
  · exact fun bn => a.archive_index_lt hpts bn
  · intro k hk
    simp only [Archive.archive_index]
    rw [if_neg hanchor]
    have hcast : ((((a.anchor_bucket_name : Int) +
        k * (a.seconds_per_point : Int)).toNat : Nat) : Int) =
        (a.anchor_bucket_name : Int) + k * (a.seconds_per_point : Int) :=
      Int.toNat_of_nonneg hk
    rw [hcast]
    have hsub : (a.anchor_bucket_name : Int) + k * (a.seconds_per_point : Int) -
        (a.anchor_bucket_name : Int) = k * (a.seconds_per_point : Int) := by
      ring
    rw [hsub, Int.mul_tdiv_cancel k (by exact_mod_cast hspp.ne')]
    have hb : (0 : Int) < (a.points : Int) := by exact_mod_cast hpts
    have hpm := Archive.py_mod_eq_emod k hb
    omega

theorem C1_witness :
    (⟨2, 3, fixtureData⟩ : Archive).anchor_bucket_name ≠ 0 ∧
    (⟨2, 3, fixtureData⟩ : Archive).archive_index 1440392090 < 3 ∧
    (⟨2, 3, fixtureData⟩ : Archive).archive_index 1440392086 = 2 := by
  have h := C1_archive_index_floor_mod ⟨2, 3, fixtureData⟩ (by decide) (by decide) (by decide)
  refine ⟨by decide, h.1 1440392090, ?_⟩
  have h2 := h.2 (-1) (by decide)
  have h3 : ((((⟨2, 3, fixtureData⟩ : Archive).anchor_bucket_name : Int) +
      (-1) * ((⟨2, 3, fixtureData⟩ : Archive).seconds_per_point : Int)).toNat : Nat) =
      1440392086 := by decide
  rw [h3] at h2
  exact h2.trans (by decide)

/-- **C5.** A read whose window runs past the end of the region wraps exactly
once: the output is the slots `[from_slot .. points)` followed by the slots
`[0 .. remainder)`.  On the 3-slot fixture this yields the points of slots
1, 2, 0 — i.e. `[(1440392090,100.0), (1440392092,100.0), (1440392088,100.0)]`
(the witness checks those bytes). -/
theorem C5_wrap_read (a : Archive) (fromBucket bufLen : Nat)
    (hWF : a.data.length = a.points * POINT_SIZE) (hlen : bufLen ≤ a.points)
    (hwrap : a.points < a.archive_index fromBucket + bufLen) :
    a.read_points fromBucket bufLen =
      .ok ((slotPoints a).drop (a.archive_index fromBucket) ++
        (slotPoints a).take (a.archive_index fromBucket + bufLen - a.points)) := by
  rw [Archive.read_points_eq a fromBucket bufLen hWF hlen]
  have hfull : ((slotPoints a).drop (a.archive_index fromBucket)).take bufLen =
      (slotPoints a).drop (a.archive_index fromBucket) := by
    apply List.take_of_length_le
    rw [List.length_drop, slotPoints_length a hWF]
    omega
  rw [hfull]

theorem C5_witness :
    (⟨2, 3, fixtureData⟩ : Archive).read_points 2 3 =
      .ok [⟨1440392090, 0x4059000000000000⟩, ⟨1440392092, 0x4059000000000000⟩,
        ⟨1440392088, 0x4059000000000000⟩] := by
  have h := C5_wrap_read ⟨2, 3, fixtureData⟩ 2 3 (by decide) (by decide) (by decide)
  exact h.trans (by decide)

/-- **C6.** `read_points` succeeds and fills exactly `bufLen` slots iff
`bufLen ≤ points`; otherwise it returns `RequestTooLarge` carrying the
requested and available counts, whose message is
"Points requested exceeds archive retention period. Requested: …,
Available: …". -/
theorem C6_read_points_length_iff (a : Archive) (fromBucket bufLen : Nat)
    (hWF : a.data.length = a.points * POINT_SIZE) :
    (bufLen ≤ a.points → ∃ l : List Point,
      a.read_points fromBucket bufLen = .ok l ∧ l.length = bufLen) ∧
    (a.points < bufLen →
      a.read_points fromBucket bufLen = .error (.requestTooLarge bufLen a.points) ∧
      (ReadError.requestTooLarge bufLen a.points).message =
        "Points requested exceeds archive retention period. Requested: " ++
          toString bufLen ++ ", Available: " ++ toString a.points) := by
  constructor
  · intro hlen
    refine ⟨_, Archive.read_points_eq a fromBucket bufLen hWF hlen, ?_⟩
    have hstart := a.archive_index_le hWF fromBucket
    rw [List.length_append, List.length_take, List.length_drop, List.length_take,
      slotPoints_length a hWF]
    omega
  · intro hgt
    refine ⟨?_, rfl⟩
    simp only [Archive.read_points]
    rw [if_pos hgt]

theorem C6_witness :
    (⟨2, 3, fixtureData⟩ : Archive).read_points 0 4 =
      .error (.requestTooLarge 4 3) ∧
    (ReadError.requestTooLarge 4 3).message =
      "Points requested exceeds archive retention period. Requested: 4, Available: 3" ∧
    ∃ l : List Point, (⟨2, 3, fixtureData⟩ : Archive).read_points 0 3 = .ok l ∧
      l.length = 3 := by
  have h4 := C6_read_points_length_iff ⟨2, 3, fixtureData⟩ 0 4 (by decide)
  have h3 := C6_read_points_length_iff ⟨2, 3, fixtureData⟩ 0 3 (by decide)
  exact ⟨(h4.2 (by decide)).1, (h4.2 (by decide)).2, h3.1 (by decide)⟩

/-- **C7.** On an archive whose anchor is 0 (freshly created region),
`archive_index` maps every bucket name to slot 0; a write therefore lands in
slot 0 (its 12 bytes become the encoded point) and establishes the written
point's bucket name as the new anchor. -/
theorem C7_zero_anchor (a : Archive) (p : Point) (hanchor : a.anchor_bucket_name = 0)
    (hWF : ArchiveWF a) (hts : p.ts < 2 ^ 32) :
    (∀ bn : Nat, a.archive_index bn = 0) ∧
    sliceBytes (a.write p).data 0 POINT_SIZE =
      Point.write_to_slice (a.bucket_name p.ts) p ∧
    (a.write p).anchor_bucket_name = a.bucket_name p.ts := by
  have h1 : ∀ bn : Nat, a.archive_index bn = 0 := fun bn => by
    simp [Archive.archive_index, hanchor]
  refine ⟨h1, ?_, ?_⟩
  · have hslot := Archive.write_data_slot a p hWF
    rw [h1 (a.bucket_name p.ts)] at hslot
    simpa using hslot
  · rw [Archive.anchor_write a p hWF hts, if_pos (h1 _)]

theorem C7_witness :
    (⟨2, 3, List.replicate 36 0⟩ : Archive).archive_index 1440392094 = 0 ∧
    ((⟨2, 3, List.replicate 36 0⟩ : Archive).write
      ⟨1440392090, 0x4059000000000000⟩).anchor_bucket_name = 1440392090 := by
  have h := C7_zero_anchor ⟨2, 3, List.replicate 36 0⟩ ⟨1440392090, 0x4059000000000000⟩
    (by decide) (by decide) (by decide)
  exact ⟨h.1 1440392094, h.2.2.trans (by decide)⟩

/-- **C9.** With the region invariant (`data.length = points * 12`) and
`bufLen ≤ points`, every slice taken by `read_points` lies within the region,
both passes decompose their slices into chunks of exactly 12 bytes, the
malformed-point branch is unreachable, and the call returns `Ok`. -/
theorem C9_read_points_safe (a : Archive) (fromBucket bufLen : Nat)
    (hWF : a.data.length = a.points * POINT_SIZE) (hlen : bufLen ≤ a.points) :
    (∃ l : List Point, a.read_points fromBucket bufLen = .ok l) ∧
    a.archive_index fromBucket * POINT_SIZE ≤ a.size ∧
    (a.size < a.archive_index fromBucket * POINT_SIZE + bufLen * POINT_SIZE →
      a.archive_index fromBucket * POINT_SIZE + bufLen * POINT_SIZE - a.size ≤ a.size ∧
      (∀ c ∈ chunksOf12 (sliceBytes a.data (a.archive_index fromBucket * POINT_SIZE) a.size),
        c.length = 12) ∧
      (∀ c ∈ chunksOf12 (sliceBytes a.data 0
          (a.archive_index fromBucket * POINT_SIZE + bufLen * POINT_SIZE - a.size)),
        c.length = 12)) ∧
    (a.archive_index fromBucket * POINT_SIZE + bufLen * POINT_SIZE ≤ a.size →
      ∀ c ∈ chunksOf12 (sliceBytes a.data (a.archive_index fromBucket * POINT_SIZE)
          (a.archive_index fromBucket * POINT_SIZE + bufLen * POINT_SIZE)),
        c.length = 12) := by
  have hWF' : a.data.length = a.points * 12 := hWF
  have hstart := a.archive_index_le hWF fromBucket
  have hsize : a.size = a.points * 12 := hWF'
  have hdroplen : (a.data.drop (a.archive_index fromBucket * 12)).length =
      (a.points - a.archive_index fromBucket) * 12 := by
    rw [List.length_drop, hWF']
    omega
  refine ⟨⟨_, Archive.read_points_eq a fromBucket bufLen hWF hlen⟩, ?_, ?_, ?_⟩
  · rw [hsize, POINT_SIZE_eq]
    omega
  · intro hw
    rw [hsize, POINT_SIZE_eq] at hw ⊢
    refine ⟨by omega, ?_, ?_⟩
    · intro c hc
      have hfirst : sliceBytes a.data (a.archive_index fromBucket * 12) (a.points * 12) =
          a.data.drop (a.archive_index fromBucket * 12) := by
        show (a.data.drop (a.archive_index fromBucket * 12)).take
          (a.points * 12 - a.archive_index fromBucket * 12) = _
        apply List.take_of_length_le
        rw [hdroplen]
        omega
      rw [hfirst, chunksOf12_drop _ a.points a.data hWF'] at hc
      exact chunksOf12_sizes a.points a.data hWF' c (List.drop_subset _ _ hc)
    · intro c hc
      have hov : a.archive_index fromBucket * 12 + bufLen * 12 - a.points * 12 =
          (a.archive_index fromBucket + bufLen - a.points) * 12 := by
        omega
      have hsecond : sliceBytes a.data 0
          (a.archive_index fromBucket * 12 + bufLen * 12 - a.points * 12) =
          a.data.take ((a.archive_index fromBucket + bufLen - a.points) * 12) := by
        rw [sliceBytes, hov, List.drop_zero, Nat.sub_zero]
      rw [hsecond, chunksOf12_take _ a.points a.data hWF'] at hc
      exact chunksOf12_sizes a.points a.data hWF' c (List.take_subset _ _ hc)
  · intro hnw c hc
    rw [hsize, POINT_SIZE_eq] at hnw
    rw [POINT_SIZE_eq] at hc
    have hslice : sliceBytes a.data (a.archive_index fromBucket * 12)
        (a.archive_index fromBucket * 12 + bufLen * 12) =
        (a.data.drop (a.archive_index fromBucket * 12)).take (bufLen * 12) := by
      rw [sliceBytes, Nat.add_sub_cancel_left]
    rw [hslice, chunksOf12_take bufLen (a.points - a.archive_index fromBucket) _ hdroplen,
      chunksOf12_drop _ a.points a.data hWF'] at hc
    exact chunksOf12_sizes a.points a.data hWF' c
      (List.drop_subset _ _ (List.take_subset _ _ hc))

theorem C9_witness :
    ∃ l : List Point, (⟨2, 3, fixtureData⟩ : Archive).read_points 2 3 = .ok l :=
  (C9_read_points_safe ⟨2, 3, fixtureData⟩ 2 3 (by decide) (by decide)).1

/-- **C10.** `Archive::write` is total in the model (infallible in the
source), preserves the region length, writes exactly the 12 bytes of the
slot `archive_index (bucket_name ts)`, and leaves every byte outside that
slot unchanged. -/
theorem C10_write_frame (a : Archive) (p : Point) (hWF : ArchiveWF a) :
    (a.write p).data.length = a.data.length ∧
    sliceBytes (a.write p).data (a.archive_index (a.bucket_name p.ts) * POINT_SIZE)
        (a.archive_index (a.bucket_name p.ts) * POINT_SIZE + POINT_SIZE) =
      Point.write_to_slice (a.bucket_name p.ts) p ∧
    (∀ j : Nat, j < a.archive_index (a.bucket_name p.ts) * POINT_SIZE ∨
        a.archive_index (a.bucket_name p.ts) * POINT_SIZE + POINT_SIZE ≤ j →
      (a.write p).data[j]? = a.data[j]?) :=
  ⟨Archive.write_data_length a p hWF, Archive.write_data_slot a p hWF,
    fun j hj => Archive.write_data_frame a p hWF j hj⟩

theorem C10_witness :
    ((⟨2, 3, fixtureData⟩ : Archive).write ⟨1440392090, 0x4020000000000000⟩).data.length =
      36 ∧
    ((⟨2, 3, fixtureData⟩ : Archive).write ⟨1440392090, 0x4020000000000000⟩).data[0]? =
      fixtureData[0]? := by
  have h := C10_write_frame ⟨2, 3, fixtureData⟩ ⟨1440392090, 0x4020000000000000⟩ (by decide)
  exact ⟨h.1.trans (by decide), h.2.2 0 (by decide)⟩

/-- **C2.** In a cascade propagation step from source archive `s` (index
`last`) to destination `d` (index `i`): the candidate window has exactly
`min (d.seconds_per_point / s.seconds_per_point) s.points` slots and the read
succeeds; the window is non-empty; the step admits the aggregate if and only
if `x_files_factor ≤ kept / candidate_count` (non-strict), where the kept
points are exactly the window slots `j` whose stored timestamp equals
`target_bucket + j * s.seconds_per_point`; in particular with
`x_files_factor = 0` the step is admitted even when no point is kept. -/
theorem C2_propagation_step (agg : List Point → Nat) (xff : ℚ) (elapsed : Int)
    (p : Point) (archs : List Archive) (last i : Nat)
    (hWFs : ArchiveWF (archs.getD last default))
    (hspp : 0 < (archs.getD last default).seconds_per_point)
    (hord : (archs.getD last default).seconds_per_point ≤
      (archs.getD i default).seconds_per_point) :
    ∃ cp : List Point,
      (archs.getD last default).read_points
          (p.ts - p.ts % (archs.getD i default).seconds_per_point)
          (min ((archs.getD i default).seconds_per_point /
              (archs.getD last default).seconds_per_point)
            (archs.getD last default).points) = .ok cp ∧
      cp.length = min ((archs.getD i default).seconds_per_point /
          (archs.getD last default).seconds_per_point)
        (archs.getD last default).points ∧
      0 < cp.length ∧
      cascadeStep agg xff elapsed (.aggregate last, p, archs) i =
        (if xff ≤ ((((cp.enum.filter fun q =>
              p.ts - p.ts % (archs.getD i default).seconds_per_point +
                q.1 * (archs.getD last default).seconds_per_point = q.2.ts).map
            Prod.snd).length : ℚ) / (cp.length : ℚ)) then
          (.aggregate i,
            ⟨p.ts - p.ts % (archs.getD i default).seconds_per_point,
              agg ((cp.enum.filter fun q =>
                p.ts - p.ts % (archs.getD i default).seconds_per_point +
                  q.1 * (archs.getD last default).seconds_per_point = q.2.ts).map
                Prod.snd)⟩,
            archs.set i ((archs.getD i default).write
              ⟨p.ts - p.ts % (archs.getD i default).seconds_per_point,
                agg ((cp.enum.filter fun q =>
                  p.ts - p.ts % (archs.getD i default).seconds_per_point +
                    q.1 * (archs.getD last default).seconds_per_point = q.2.ts).map
                  Prod.snd)⟩))
        else (.finished, p, archs)) ∧
      (xff = 0 →
        (cascadeStep agg xff elapsed (.aggregate last, p, archs) i).1 = .aggregate i) := by
  have hcand : min ((archs.getD i default).seconds_per_point /
      (archs.getD last default).seconds_per_point) (archs.getD last default).points ≤
      (archs.getD last default).points := min_le_right _ _
  have hone : 1 ≤ (archs.getD i default).seconds_per_point /
      (archs.getD last default).seconds_per_point := (Nat.one_le_div_iff hspp).mpr hord
  have hpos : 0 < min ((archs.getD i default).seconds_per_point /
      (archs.getD last default).seconds_per_point) (archs.getD last default).points := by
    have := hWFs.2
    omega
  obtain ⟨cp, hread, hlencp⟩ :=
    (C6_read_points_length_iff (archs.getD last default)
      (p.ts - p.ts % (archs.getD i default).seconds_per_point)
      (min ((archs.getD i default).seconds_per_point /
          (archs.getD last default).seconds_per_point)
        (archs.getD last default).points) hWFs.1).1 hcand
  refine ⟨cp, hread, hlencp, by omega, ?_, ?_⟩
  · rw [cascadeStep_aggregate, hread, hlencp]
  · intro h0
    have hstep : cascadeStep agg xff elapsed (.aggregate last, p, archs) i =
        (.aggregate i,
          ⟨p.ts - p.ts % (archs.getD i default).seconds_per_point,
            agg ((cp.enum.filter fun q =>
              p.ts - p.ts % (archs.getD i default).seconds_per_point +
                q.1 * (archs.getD last default).seconds_per_point = q.2.ts).map Prod.snd)⟩,
          archs.set i ((archs.getD i default).write
            ⟨p.ts - p.ts % (archs.getD i default).seconds_per_point,
              agg ((cp.enum.filter fun q =>
                p.ts - p.ts % (archs.getD i default).seconds_per_point +
                  q.1 * (archs.getD last default).seconds_per_point = q.2.ts).map
                Prod.snd)⟩)) := by
      rw [cascadeStep_aggregate, hread]
      apply if_pos
      rw [h0]
      positivity
    rw [hstep]

theorem C2_witness :
    (cascadeStep (fun _ => 0) 0 0 (.aggregate 0, ⟨5, 0⟩, demoArchives) 1).1 =
      .aggregate 1 := by
  obtain ⟨cp, h1, h2, h3, h4, h5⟩ :=
    C2_propagation_step (fun _ => 0) 0 0 ⟨5, 0⟩ demoArchives 0 1
      (by decide) (by decide) (by decide)
  exact h5 rfl

/-- **C3.** Once a propagation step rejects (the kept/candidate fraction is
below the x-files-factor), the cascade finishes: the remaining fold performs
no further write and the archives are returned unchanged. -/
theorem C3_cascade_halt (agg : List Point → Nat) (xff : ℚ) (elapsed : Int)
    (p : Point) (archs : List Archive) (last i : Nat) (rest : List Nat)
    (cp : List Point)
    (hread : (archs.getD last default).read_points
        (p.ts - p.ts % (archs.getD i default).seconds_per_point)
        (min ((archs.getD i default).seconds_per_point /
            (archs.getD last default).seconds_per_point)
          (archs.getD last default).points) = .ok cp)
    (hreject : ((((cp.enum.filter fun q =>
        p.ts - p.ts % (archs.getD i default).seconds_per_point +
          q.1 * (archs.getD last default).seconds_per_point = q.2.ts).map
        Prod.snd).length : ℚ) /
      ((min ((archs.getD i default).seconds_per_point /
          (archs.getD last default).seconds_per_point)
        (archs.getD last default).points : Nat) : ℚ)) < xff) :
    writeLoop agg xff elapsed (i :: rest) (.aggregate last, p, archs) =
      (.finished, p, archs) := by
  rw [writeLoop_cons]
  have hs : cascadeStep agg xff elapsed (.aggregate last, p, archs) i =
      (.finished, p, archs) := by
    rw [cascadeStep_aggregate, hread]
    exact if_neg (not_le.mpr hreject)
  rw [hs, writeLoop_finished]

theorem C3_witness :
    writeLoop (fun _ => 0) 1 0 [1, 2, 3] (.aggregate 0, ⟨5, 0⟩, demoArchives) =
      (.finished, ⟨5, 0⟩, demoArchives) := by
  have hk : ((((⟨0, 0⟩ : Point) :: [(⟨0, 0⟩ : Point)]).enum.filter fun q =>
      (⟨5, 0⟩ : Point).ts -
          (⟨5, 0⟩ : Point).ts % (demoArchives.getD 1 default).seconds_per_point +
        q.1 * (demoArchives.getD 0 default).seconds_per_point = q.2.ts).map
      Prod.snd).length = 0 := by decide
  have hc : (min ((demoArchives.getD 1 default).seconds_per_point /
      (demoArchives.getD 0 default).seconds_per_point)
      (demoArchives.getD 0 default).points : Nat) = 2 := by decide
  have hreject : ((((((⟨0, 0⟩ : Point) :: [(⟨0, 0⟩ : Point)]).enum.filter fun q =>
      (⟨5, 0⟩ : Point).ts -
          (⟨5, 0⟩ : Point).ts % (demoArchives.getD 1 default).seconds_per_point +
        q.1 * (demoArchives.getD 0 default).seconds_per_point = q.2.ts).map
      Prod.snd).length : ℚ) /
      ((min ((demoArchives.getD 1 default).seconds_per_point /
          (demoArchives.getD 0 default).seconds_per_point)
        (demoArchives.getD 0 default).points : Nat) : ℚ)) < 1 := by
    rw [hk, hc]
    norm_num
  exact C3_cascade_halt (fun _ => 0) 1 0 ⟨5, 0⟩ demoArchives 0 1 [2, 3]
    [⟨0, 0⟩, ⟨0, 0⟩] (by decide) hreject

/-- **C4.** The engine write targets the first archive (in ascending
resolution order) with `0 ≤ elapsed < retention`, handing it the caller's
point verbatim; when no archive qualifies (future-dated point or elapsed
beyond the coarsest retention), the write returns normally — the model is a
total function — and leaves every archive unchanged. -/
theorem C4_retention_targeting (agg : List Point → Nat) (f : WhisperFile) (p : Point)
    (now : Int) :
    ((∀ a ∈ f.archives, now - (p.ts : Int) < 0 ∨ (a.retention : Int) ≤ now - (p.ts : Int)) →
      f._write agg p now = f) ∧
    (∀ k : Nat, k < f.archives.length →
      0 ≤ now - (p.ts : Int) →
      now - (p.ts : Int) < ((f.archives.getD k default).retention : Int) →
      (∀ j : Nat, j < k →
        ((f.archives.getD j default).retention : Int) ≤ now - (p.ts : Int)) →
      (f._write agg p now).archives.getD k default =
        (f.archives.getD k default).write p) := by
  constructor
  · intro h
    show (WhisperFile.mk f.x_files_factor
        ((writeLoop agg f.x_files_factor (now - (p.ts : Int))
          (List.range f.archives.length) (.initial, p, f.archives)).2.2)) = f
    rw [writeLoop_initial_all_reject agg f.x_files_factor (now - (p.ts : Int))
      (List.range f.archives.length) p f.archives ?_]
    intro i hi
    have hilen : i < f.archives.length := List.mem_range.mp hi
    have hmem : f.archives.getD i default ∈ f.archives := by
      have hh : f.archives.getD i default = f.archives[i] := by
        rw [List.getD_eq_getElem?_getD, List.getElem?_eq_getElem hilen]
        rfl
      rw [hh]
      exact List.getElem_mem hilen
    rcases h _ hmem with h' | h'
    · exact Or.inl h'
    · exact Or.inr (by omega)
  · intro k hk h0 hcov hfirst
    show ((writeLoop agg f.x_files_factor (now - (p.ts : Int))
        (List.range f.archives.length) (.initial, p, f.archives)).2.2).getD k default = _
    apply writeLoop_initial_getD agg f.x_files_factor (now - (p.ts : Int))
      (List.range f.archives.length) p f.archives k (List.mem_range.mpr hk)
      (List.pairwise_lt_range _) hk
    · intro j _ hjk
      exact Or.inr (by have := hfirst j hjk; omega)
    · intro hcontra
      rcases hcontra with h' | h'
      · omega
      · omega

theorem C4_witness :
    WhisperFile._write (fun _ => 0) ⟨0, demoArchives⟩ ⟨10, 0⟩ 5 =
      (⟨0, demoArchives⟩ : WhisperFile) :=
  (C4_retention_targeting (fun _ => 0) ⟨0, demoArchives⟩ ⟨10, 0⟩ 5).1 (by decide)

/-- **C8.** The engine write is idempotent: on a well-formed file, writing
the same point twice with the same clock value leaves the file byte-identical
to writing it once, for every aggregation function. -/
theorem C8_write_idempotent (agg : List Point → Nat) (f : WhisperFile) (p : Point)
    (now : Int) (hWF : FileWF f) (hts : p.ts < 2 ^ 32) :
    (f._write agg p now)._write agg p now = f._write agg p now := by
  have hlen : ((writeLoop agg f.x_files_factor (now - (p.ts : Int))
      (List.range f.archives.length) (.initial, p, f.archives)).2.2).length =
      f.archives.length := writeLoop_length agg f.x_files_factor _ _ _
  have key := writeLoop_idem agg f.x_files_factor (now - (p.ts : Int))
    (List.range f.archives.length) .initial p f.archives hWF hts
    (List.pairwise_lt_range _) (fun last h => by cases h)
  show (WhisperFile.mk f.x_files_factor
      ((writeLoop agg f.x_files_factor (now - (p.ts : Int))
        (List.range ((writeLoop agg f.x_files_factor (now - (p.ts : Int))
          (List.range f.archives.length) (.initial, p, f.archives)).2.2).length)
        (.initial, p, (writeLoop agg f.x_files_factor (now - (p.ts : Int))
          (List.range f.archives.length) (.initial, p, f.archives)).2.2)).2.2)) =
    WhisperFile.mk f.x_files_factor
      ((writeLoop agg f.x_files_factor (now - (p.ts : Int))
        (List.range f.archives.length) (.initial, p, f.archives)).2.2)
  rw [hlen, key]

theorem C8_witness :
    WhisperFile._write (fun _ => 0)
        (WhisperFile._write (fun _ => 0) ⟨0, demoArchives⟩ ⟨5, 77⟩ 5) ⟨5, 77⟩ 5 =
      WhisperFile._write (fun _ => 0) ⟨0, demoArchives⟩ ⟨5, 77⟩ 5 :=
  C8_write_idempotent (fun _ => 0) ⟨0, demoArchives⟩ ⟨5, 77⟩ 5 (by decide) (by decide)
